/-
Verification of the `lain` structure-aware mutation engine
(`src/lain/src/mutatable.rs`) against its natural-language specification.

The random source is embedded as an explicit stream of natural-number draws
(`Rand`), threaded through every operation exactly where the Rust code
consumes randomness.  External collaborators (fresh-value generation,
the primitive numeric mutation service) are universally quantified
function parameters.  Fallible Rust code (panicking `Vec::drain` index
arithmetic) is embedded with `Option`.
-/
import Mathlib

namespace Lain

/-- The outcome of the external random source: a stream of raw draws,
consumed one at a time.  An exhausted stream yields 0. -/
abbrev Rand := List Nat

/-- Consume one raw draw from the stream. -/
def nextNat : Rand → Nat × Rand
  | [] => (0, [])
  | d :: r => (d, r)

/-- Modelled from the spec: `Mutator::gen_range(low, high)` lives in
`src/lain/src/mutator.rs`, which is not among the provided sources.  The
spec (§4.1) describes it as a uniform sampling primitive over `[low, high)`;
one raw draw is reduced into the range.  (Rust panics on an empty range;
every in-scope claim stays inside nonempty ranges.) -/
def gen_range (low high : Nat) (r : Rand) : Nat × Rand :=
  let p := nextNat r
  (low + p.1 % (high - low), p.2)

/-- Modelled from the spec: `Mutator::gen_chance` (in `mutator.rs`, not
provided) is a boolean-chance sampling primitive; the call site
`gen_chance(1.0)` is documented as a "1% chance".  One raw draw succeeds
with probability 1/100 under a uniform draw. -/
def gen_chance (r : Rand) : Bool × Rand :=
  let p := nextNat r
  (p.1 % 100 == 0, p.2)

/-- Modelled from the spec: `MutatorMode` (in `mutator.rs`, not provided) is
a closed set with at minimum `Havoc` — the mode permitting structural edits —
plus other non-destructive modes, collapsed here into one representative. -/
inductive MutatorMode
  | Havoc
  | NonDestructive
deriving DecidableEq, Repr

/-- Modelled from the spec: `Constraints` (in `types.rs`, not provided)
holds an optional maximum remaining size in bytes (§3).  `grow_vec` builds
one with `Constraints::new()` followed by `c.max_size(m)`. -/
structure Constraints where
  max_size : Option Nat
deriving DecidableEq, Repr

/-- The source enum `VecResizeCount` with variants Quarter, Half,
ThreeQuarters, FixedBytes, AllBytes (mutatable.rs line 14). -/
inductive VecResizeCount
  | Quarter
  | Half
  | ThreeQuarters
  | FixedBytes
  | AllBytes
deriving DecidableEq, Repr

/-- The derived `NewFuzzed` impl for `VecResizeCount`: draw one of the five
variants uniformly at random (one raw draw). -/
def VecResizeCount.new_fuzzed (r : Rand) : VecResizeCount × Rand :=
  let p := nextNat r
  (match p.1 % 5 with
   | 0 => .Quarter
   | 1 => .Half
   | 2 => .ThreeQuarters
   | 3 => .FixedBytes
   | _ => .AllBytes, p.2)

/-- The source enum `VecResizeDirection` with variants FromBeginning and
FromEnd (mutatable.rs line 23). -/
inductive VecResizeDirection
  | FromBeginning
  | FromEnd
deriving DecidableEq, Repr

/-- The derived `NewFuzzed` impl for `VecResizeDirection`: one uniform draw
over the two variants. -/
def VecResizeDirection.new_fuzzed (r : Rand) : VecResizeDirection × Rand :=
  let p := nextNat r
  (match p.1 % 2 with
   | 0 => .FromBeginning
   | _ => .FromEnd, p.2)

/-- The source enum `VecResizeType` with variants Grow and Shrink
(mutatable.rs line 29). -/
inductive VecResizeType
  | Grow
  | Shrink
deriving DecidableEq, Repr

/-- The derived `NewFuzzed` impl for `VecResizeType`: one uniform draw over
the two variants. -/
def VecResizeType.new_fuzzed (r : Rand) : VecResizeType × Rand :=
  let p := nextNat r
  (match p.1 % 2 with
   | 0 => .Grow
   | _ => .Shrink, p.2)

/-- The `match resize_count { ... }` table shared verbatim by `grow_vec`
(lines 43–59) and `shrink_vec` (lines 138–154): the candidate element count
as a function of the current length, consuming one extra draw only in the
`FixedBytes` arm (`mutator.gen_range(1, 9)`). -/
def resizeCount (len : Nat) (policy : VecResizeCount) (r : Rand) : Nat × Rand :=
  match policy with
  | .Quarter => (len / 4, r)
  | .Half => (len / 2, r)
  | .ThreeQuarters => (len - len / 4, r)
  | .FixedBytes => gen_range 1 9 r
  | .AllBytes => (len, r)

/-- The element-generation loop shared verbatim by both direction arms of
`grow_vec` (lines 76–97 and 103–124): run up to `k` iterations; each
iteration derives a per-element `Constraints` from the remaining budget,
generates a fresh element, and — when a budget is present — breaks before
inserting an element whose reported size exceeds the remaining budget,
otherwise decrements the budget by the element's actual size.
Returns the accepted elements in generation order, the remaining budget and
the remaining stream. -/
def growElems {T : Type} (new_fuzzed : Option Constraints → Rand → T × Rand)
    (serialized_size : T → Nat) :
    Nat → Option Nat → Rand → List T × Option Nat × Rand
  | 0, max_size, r => ([], max_size, r)
  | Nat.succ k, max_size, r =>
    let constraints := max_size.map (fun m => Constraints.mk (some m))
    let p := new_fuzzed constraints r
    match max_size with
    | some inner_max_size =>
      let element_size := serialized_size p.1
      if element_size > inner_max_size then
        ([], some inner_max_size, p.2)
      else
        let rest := growElems new_fuzzed serialized_size k
          (some (inner_max_size - element_size)) p.2
        (p.1 :: rest.1, rest.2.1, rest.2.2)
    | none =>
      let rest := growElems new_fuzzed serialized_size k none p.2
      (p.1 :: rest.1, rest.2.1, rest.2.2)

/-- The budget cap of `grow_vec` (mutatable.rs lines 63–65): when a size
constraint is present, the candidate count is reduced to at most
`max_size / T::min_nonzero_elements_size()`. -/
def capCount (max_size : Option Nat) (min_nonzero n0 : Nat) : Nat :=
  match max_size with
  | some m => min n0 (m / min_nonzero)
  | none => n0

/-- The tail of `grow_vec` after the capped count is fixed (mutatable.rs
lines 67–126): a zero count returns at once; otherwise draw a direction and
run the element loop, splicing the freshly built prefix before the original
vec (`FromBeginning`) or pushing onto its end (`FromEnd`).  `new_fuzzed` is
the external fresh-generation capability of `T` and `serialized_size` its
size report. -/
def growExec {T : Type} (new_fuzzed : Option Constraints → Rand → T × Rand)
    (serialized_size : T → Nat) (vec : List T) (num_elements : Nat)
    (max_size : Option Nat) (r : Rand) : List T × Rand :=
  if num_elements = 0 then (vec, r)
  else
    let pd := VecResizeDirection.new_fuzzed r
    let g := growElems new_fuzzed serialized_size num_elements max_size pd.2
    match pd.1 with
    | .FromBeginning => (g.1 ++ vec, g.2.2)
    | .FromEnd => (vec ++ g.1, g.2.2)

/-- The function `grow_vec` (mutatable.rs lines 38–127): draw the count
policy, compute
the candidate count (an empty vec instead draws uniformly from `[1, 9)`,
lines 40–41), apply the budget cap, and run the tail.  `min_nonzero` is the
constant `T::min_nonzero_elements_size()`. -/
def grow_vec {T : Type} (new_fuzzed : Option Constraints → Rand → T × Rand)
    (serialized_size : T → Nat) (min_nonzero : Nat)
    (vec : List T) (max_size : Option Nat) (r : Rand) : List T × Rand :=
  let pc := VecResizeCount.new_fuzzed r
  let pn : Nat × Rand :=
    if vec.length = 0 then gen_range 1 9 pc.2
    else resizeCount vec.length pc.1 pc.2
  growExec new_fuzzed serialized_size vec (capCount max_size min_nonzero pn.1)
    max_size pn.2

/-- The tail of `shrink_vec` after the removal count is fixed
(mutatable.rs lines 160–173): clear when the count equals the length,
otherwise draw a direction and drain that many contiguous elements from the
chosen end.  `Vec::drain` panics when the range exceeds the length
(`drain(0..n)` with `n > len`, or the `vec.len() - n` underflow), embedded
as `none`. -/
def shrinkExec {T : Type} (vec : List T) (num_elements : Nat) (r : Rand) :
    Option (List T × Rand) :=
  if num_elements = vec.length then some ([], r)
  else
    let pd := VecResizeDirection.new_fuzzed r
    if num_elements ≤ vec.length then
      match pd.1 with
      | .FromBeginning => some (vec.drop num_elements, pd.2)
      | .FromEnd => some (vec.take (vec.length - num_elements), pd.2)
    else none

/-- The function `shrink_vec` (mutatable.rs lines 132–174).  An empty vec returns
immediately, before any draw.  Otherwise draw a count policy, compute the
candidate count, replace a zero count by a uniform draw from
`[0, len + 1)`, and run the removal tail. -/
def shrink_vec {T : Type} (vec : List T) (r : Rand) : Option (List T × Rand) :=
  if vec.length = 0 then some (vec, r)
  else
    let pc := VecResizeCount.new_fuzzed r
    let pn := resizeCount vec.length pc.1 pc.2
    let pn2 : Nat × Rand :=
      if pn.1 = 0 then gen_range 0 (vec.length + 1) pn.2 else pn
    shrinkExec vec pn2.1 pn2.2

/-- The `impl Mutatable for [T]` (mutatable.rs lines 217–226): every element
is mutated independently, in order, each receiving the same constraint
object. -/
def sliceMutate {T : Type}
    (mutateElem : T → Option Constraints → Rand → T × Rand)
    (constraints : Option Constraints) : List T → Rand → List T × Rand
  | [], r => ([], r)
  | x :: xs, r =>
    let p := mutateElem x constraints r
    let rest := sliceMutate mutateElem constraints xs p.2
    (p.1 :: rest.1, rest.2)

/-- The `default fn mutate` impl for `Vec<T>` with `T: Mutatable` only
(mutatable.rs lines 176–192): in `Havoc` mode a chance draw selects
`shrink_vec`; otherwise the slice contract mutates each element in place.
The `&&` short-circuits, so no chance draw is consumed outside `Havoc`. -/
def vecMutateDefault {T : Type}
    (mutateElem : T → Option Constraints → Rand → T × Rand)
    (mode : MutatorMode) (vec : List T) (constraints : Option Constraints)
    (r : Rand) : Option (List T × Rand) :=
  if mode = MutatorMode.Havoc then
    let pc := gen_chance r
    if pc.1 then shrink_vec vec pc.2
    else some (sliceMutate mutateElem constraints vec pc.2)
  else some (sliceMutate mutateElem constraints vec r)

/-- The specialized `Mutatable` impl for `Vec<T>` with
`T: Mutatable + NewFuzzed + SerializedSize` (mutatable.rs lines 194–215):
in `Havoc` mode a chance draw selects a structural edit, a further draw
picks `Grow` or `Shrink`, and `grow_vec` receives
`constraints.map_or(None, |c| c.max_size)`; otherwise the slice contract
runs. -/
def vecMutateGrow {T : Type}
    (new_fuzzed : Option Constraints → Rand → T × Rand)
    (serialized_size : T → Nat) (min_nonzero : Nat)
    (mutateElem : T → Option Constraints → Rand → T × Rand)
    (mode : MutatorMode) (vec : List T) (constraints : Option Constraints)
    (r : Rand) : Option (List T × Rand) :=
  if mode = MutatorMode.Havoc then
    let pc := gen_chance r
    if pc.1 then
      let pt := VecResizeType.new_fuzzed pc.2
      if pt.1 = VecResizeType.Grow then
        some (grow_vec new_fuzzed serialized_size min_nonzero vec
          (constraints.bind (fun c => c.max_size)) pt.2)
      else shrink_vec vec pt.2
    else some (sliceMutate mutateElem constraints vec pc.2)
  else some (sliceMutate mutateElem constraints vec r)

/-- Serialized size of a sequence: the sum of its elements' reported
sizes. -/
def listSize {T : Type} (serialized_size : T → Nat) (l : List T) : Nat :=
  (l.map serialized_size).sum

/-- Modelled from the spec: `UnsafeEnum<T, I>` (in `types.rs`, not provided)
is a tagged union over `Valid(T)` — a well-formed enumerator — and
`Invalid(I)` — a raw underlying integer (§3). -/
inductive UnsafeEnum (T I : Type)
  | Valid : T → UnsafeEnum T I
  | Invalid : I → UnsafeEnum T I
deriving DecidableEq, Repr

/-- Whether the wrapper is in the `Invalid` state. -/
def UnsafeEnum.isInvalid {T I : Type} : UnsafeEnum T I → Bool
  | .Valid _ => false
  | .Invalid _ => true

/-- The `Mutatable` impl for `UnsafeEnum<T, I>` (mutatable.rs lines
234–258): a `Valid` value is first replaced by `Invalid` of its raw
representation (`to_primitive`), then the raw integer is mutated by the
external primitive numeric dispatch `mutator.mutate_from_mutation_mode`,
here the parameter `mutatePrim`. -/
def UnsafeEnum.mutate {T I : Type} (to_primitive : T → I)
    (mutatePrim : I → Rand → I × Rand) (e : UnsafeEnum T I) (r : Rand) :
    UnsafeEnum T I × Rand :=
  let e1 : UnsafeEnum T I :=
    match e with
    | .Valid value => .Invalid (to_primitive value)
    | .Invalid value => .Invalid value
  match e1 with
  | .Invalid value =>
    let p := mutatePrim value r
    (.Invalid p.1, p.2)
  | .Valid value => (.Valid value, r)

/-- Models `rand::seq::index::sample(rng, len, k)` (external `rand` crate):
draw `k` distinct indices without replacement by repeatedly picking a
uniform position in the remaining pool and removing the picked index.
Called with `pool = List.range len`. -/
def sampleIndices (k : Nat) (pool : List Nat) (r : Rand) : List Nat × Rand :=
  match k with
  | 0 => ([], r)
  | Nat.succ k1 =>
    if pool.length = 0 then ([], r)
    else
      let p := gen_range 0 pool.length r
      let idx := pool.getD p.1 0
      let rest := sampleIndices k1 (pool.erase idx) p.2
      (idx :: rest.1, rest.2)

/-- The body of the string-mutation loop (mutatable.rs lines 266–268 and
278–280): for each sampled index in order, generate a fresh character with
no constraint and overwrite that position. -/
def applyMutations {C : Type} (new_fuzzed_char : Rand → C × Rand) :
    List Nat → List C → Rand → List C × Rand
  | [], l, r => (l, r)
  | i :: is, l, r =>
    let p := new_fuzzed_char r
    applyMutations new_fuzzed_char is (l.set i p.1) p.2

/-- The shared shape of the `Mutatable` impls for `AsciiString` and
`Utf8String` (mutatable.rs lines 260–282): draw
`num_mutations = gen_range(1, len)`, sample that many distinct positions
without replacement, and replace each selected position's character with a
freshly generated one. -/
def stringMutate {C : Type} (new_fuzzed_char : Rand → C × Rand)
    (inner : List C) (r : Rand) : List C × Rand :=
  let pn := gen_range 1 inner.length r
  let ps := sampleIndices pn.1 (List.range inner.length) pn.2
  applyMutations new_fuzzed_char ps.1 inner ps.2

/-- Modelled from the spec: `AsciiString` (in `types.rs`, not provided) owns
an ordered sequence `inner` of ASCII character units (§3); the character
type is kept abstract. -/
structure AsciiString (C : Type) where
  inner : List C
deriving DecidableEq, Repr

/-- The `Mutatable` impl for `AsciiString` (mutatable.rs lines 260–270);
`new_fuzzed_char` is the external `AsciiChar::new_fuzzed`. -/
def AsciiString.mutate {C : Type} (new_fuzzed_char : Rand → C × Rand)
    (s : AsciiString C) (r : Rand) : AsciiString C × Rand :=
  let p := stringMutate new_fuzzed_char s.inner r
  (⟨p.1⟩, p.2)

/-- Modelled from the spec: `Utf8String` (in `types.rs`, not provided) owns
an ordered sequence `inner` of UTF-8 character units (§3); the character
type is kept abstract. -/
structure Utf8String (C : Type) where
  inner : List C
deriving DecidableEq, Repr

/-- The `Mutatable` impl for `Utf8String` (mutatable.rs lines 272–282);
`new_fuzzed_char` is the external `Utf8Char::new_fuzzed`. -/
def Utf8String.mutate {C : Type} (new_fuzzed_char : Rand → C × Rand)
    (s : Utf8String C) (r : Rand) : Utf8String C × Rand :=
  let p := stringMutate new_fuzzed_char s.inner r
  (⟨p.1⟩, p.2)

/-! ### Helper lemmas -/

theorem listSize_append {T : Type} (sz : T → Nat) (a b : List T) :
    listSize sz (a ++ b) = listSize sz a + listSize sz b := by
  simp [listSize]

theorem growElems_size_le {T : Type}
    (gen : Option Constraints → Rand → T × Rand) (sz : T → Nat) :
    ∀ (k C : Nat) (r : Rand), listSize sz (growElems gen sz k (some C) r).1 ≤ C := by
  intro k
  induction k with
  | zero =>
    intro C r
    simp [growElems, listSize]
  | succ k ih =>
    intro C r
    simp only [growElems, Option.map_some']
    split
    · simp [listSize]
    · rename_i h
      simp only [listSize, List.map_cons, List.sum_cons]
      have hrec := ih (C - sz (gen (some (Constraints.mk (some C))) r).1)
        (gen (some (Constraints.mk (some C))) r).2
      simp only [listSize] at hrec
      omega

theorem growElems_none_length {T : Type}
    (gen : Option Constraints → Rand → T × Rand) (sz : T → Nat) :
    ∀ (k : Nat) (r : Rand), (growElems gen sz k none r).1.length = k := by
  intro k
  induction k with
  | zero => intro r; simp [growElems]
  | succ k ih => intro r; simp [growElems, ih]

theorem sliceMutate_length {T : Type}
    (me : T → Option Constraints → Rand → T × Rand) (c : Option Constraints) :
    ∀ (l : List T) (r : Rand), (sliceMutate me c l r).1.length = l.length := by
  intro l
  induction l with
  | nil => intro r; simp [sliceMutate]
  | cons x xs ih => intro r; simp [sliceMutate, ih]

theorem gen_range_bounds (low high : Nat) (r : Rand) (h : low < high) :
    low ≤ (gen_range low high r).1 ∧ (gen_range low high r).1 < high := by
  simp only [gen_range]
  have := Nat.mod_lt (nextNat r).1 (show 0 < high - low by omega)
  omega

theorem applyMutations_length {C : Type} (g : Rand → C × Rand) :
    ∀ (is : List Nat) (l : List C) (r : Rand),
      (applyMutations g is l r).1.length = l.length := by
  intro is
  induction is with
  | nil => intro l r; simp [applyMutations]
  | cons i is ih =>
    intro l r
    simp [applyMutations, ih]

theorem stringMutate_length {C : Type} (g : Rand → C × Rand) (inner : List C)
    (r : Rand) : (stringMutate g inner r).1.length = inner.length := by
  simp [stringMutate, applyMutations_length]

theorem sampleIndices_nodup_mem :
    ∀ (k : Nat) (pool : List Nat) (r : Rand), pool.Nodup →
      (sampleIndices k pool r).1.Nodup ∧
      ∀ i ∈ (sampleIndices k pool r).1, i ∈ pool := by
  intro k
  induction k with
  | zero => intro pool r hp; simp [sampleIndices]
  | succ k ih =>
    intro pool r hp
    simp only [sampleIndices]
    by_cases hz : pool.length = 0
    · simp [hz]
    · rw [if_neg hz]
      have hlt : (gen_range 0 pool.length r).1 < pool.length :=
        (gen_range_bounds 0 pool.length r (by omega)).2
      set idx := pool.getD (gen_range 0 pool.length r).1 0 with hidx
      have hmem : idx ∈ pool := by
        rw [hidx, List.getD_eq_getElem pool 0 hlt]
        exact List.getElem_mem hlt
      have herase := ih (pool.erase idx) (gen_range 0 pool.length r).2
        (hp.erase idx)
      refine ⟨?_, ?_⟩
      · refine List.nodup_cons.mpr ⟨fun hin => ?_, herase.1⟩
        exact (List.Nodup.not_mem_erase hp) (herase.2 idx hin)
      · intro i hi
        rcases List.mem_cons.mp hi with h | h
        · exact h ▸ hmem
        · exact List.erase_subset _ _ (herase.2 i h)

theorem sampleIndices_length :
    ∀ (k : Nat) (pool : List Nat) (r : Rand), k ≤ pool.length →
      (sampleIndices k pool r).1.length = k := by
  intro k
  induction k with
  | zero => intro pool r hk; simp [sampleIndices]
  | succ k ih =>
    intro pool r hk
    simp only [sampleIndices]
    have hz : pool.length ≠ 0 := by omega
    rw [if_neg hz]
    have hlt : (gen_range 0 pool.length r).1 < pool.length :=
      (gen_range_bounds 0 pool.length r (by omega)).2
    have hmem : pool.getD (gen_range 0 pool.length r).1 0 ∈ pool := by
      rw [List.getD_eq_getElem pool 0 hlt]
      exact List.getElem_mem hlt
    have hlen := List.length_erase_of_mem hmem
    simp only [List.length_cons]
    rw [ih (pool.erase (pool.getD (gen_range 0 pool.length r).1 0))
      (gen_range 0 pool.length r).2 (by omega)]

/-! ### Claim theorems -/

/-- C1, counterexample: the claim "after `grow_vec` completes the serialized
size of the sequence is at most C" fails for a non-empty starting sequence:
with one element of reported size 5 and a budget `C = 4`, `grow_vec` leaves
the element in place (it never removes anything), so the result's
serialized size is 5 > 4 even though nothing was added. -/
theorem grow_vec_total_size_exceeds_budget :
    ¬ listSize (fun _ => 5)
        (grow_vec (fun _ r => ((0 : Nat), r)) (fun _ => 5) 1 [0] (some 4)
          [4, 0, 0]).1 ≤ 4 := by
  decide

/-- C1, amended: under a byte-size constraint `C`, the serialized size of
the elements `grow_vec` adds is at most `C` — the final serialized size is
at most the original serialized size plus `C`, hence at most `C` when the
sequence starts empty.  The candidate count is capped by
`C / min_nonzero`, insertion stops before any element whose reported size
exceeds the remaining budget, and the budget is decremented by each
accepted element's actual size. -/
theorem grow_vec_added_size_le_budget (T : Type)
    (gen : Option Constraints → Rand → T × Rand) (sz : T → Nat)
    (min_nonzero : Nat) (vec : List T) (C : Nat) (r : Rand) :
    listSize sz (grow_vec gen sz min_nonzero vec (some C) r).1 ≤
      listSize sz vec + C ∧
    listSize sz (grow_vec gen sz min_nonzero ([] : List T) (some C) r).1 ≤ C := by
  have tail : ∀ (v : List T) (n : Nat) (r0 : Rand),
      listSize sz (growExec gen sz v n (some C) r0).1 ≤ listSize sz v + C := by
    intro v n r0
    simp only [growExec]
    split
    · exact Nat.le_add_right _ _
    · split
      · rw [listSize_append]
        have := growElems_size_le gen sz n C
          (VecResizeDirection.new_fuzzed r0).2
        omega
      · rw [listSize_append]
        have := growElems_size_le gen sz n C
          (VecResizeDirection.new_fuzzed r0).2
        omega
  have key : ∀ (v : List T) (r0 : Rand),
      listSize sz (grow_vec gen sz min_nonzero v (some C) r0).1 ≤
        listSize sz v + C := by
    intro v r0
    simp only [grow_vec]
    exact tail v _ _
  refine ⟨key vec r, ?_⟩
  have h := key [] r
  simpa [listSize] using h

/-- C2: the claim says `shrink_vec` completes without fault for every
outcome, including a `FixedBytes` count independent of the length — but on
a 3-element sequence, when the policy draw selects `FixedBytes` and the
count draw yields 5, the code reaches `vec.drain(0..5)` (or the
`vec.len() - 5` underflow), which panics; the embedding returns `none`. -/
theorem shrink_vec_fixed_bytes_panics :
    shrink_vec [0, 1, 2] [3, 4, 0] = none := by
  decide

/-- C4: every `UnsafeEnum::mutate` call leaves the wrapper `Invalid`: a
`Valid` value is first converted through its deterministic raw-representation
mapping and then the raw integer is mutated by the primitive numeric
dispatch, and an `Invalid` value stays `Invalid` with only its raw integer
mutated — so no sequence of mutate calls ever returns the wrapper to
`Valid`. -/
theorem unsafeEnum_mutate_always_invalid (T I : Type) (to_primitive : T → I)
    (mutatePrim : I → Rand → I × Rand) (e : UnsafeEnum T I) (r : Rand) :
    (UnsafeEnum.mutate to_primitive mutatePrim e r).1.isInvalid = true ∧
    (∀ v, UnsafeEnum.mutate to_primitive mutatePrim (UnsafeEnum.Valid v) r =
      (UnsafeEnum.Invalid (mutatePrim (to_primitive v) r).1,
        (mutatePrim (to_primitive v) r).2)) ∧
    (∀ i, UnsafeEnum.mutate to_primitive mutatePrim (UnsafeEnum.Invalid i) r =
      (UnsafeEnum.Invalid (mutatePrim i r).1, (mutatePrim i r).2)) := by
  refine ⟨?_, fun v => rfl, fun i => rfl⟩
  cases e <;> rfl

/-- C9: every resize and mutate operation of the embedding is a
deterministic function of the input value, the constraint and the random
draws: two runs on identical arguments produce identical results. -/
theorem resize_deterministic (T : Type)
    (gen : Option Constraints → Rand → T × Rand) (sz : T → Nat)
    (min_nonzero : Nat) (me : T → Option Constraints → Rand → T × Rand)
    (mode : MutatorMode) (v1 v2 : List T) (m1 m2 : Option Nat)
    (c1 c2 : Option Constraints) (r1 r2 : Rand)
    (hv : v1 = v2) (hm : m1 = m2) (hc : c1 = c2) (hr : r1 = r2) :
    grow_vec gen sz min_nonzero v1 m1 r1 = grow_vec gen sz min_nonzero v2 m2 r2 ∧
    shrink_vec v1 r1 = shrink_vec v2 r2 ∧
    vecMutateGrow gen sz min_nonzero me mode v1 c1 r1 =
      vecMutateGrow gen sz min_nonzero me mode v2 c2 r2 ∧
    vecMutateDefault me mode v1 c1 r1 = vecMutateDefault me mode v2 c2 r2 := by
  subst hv; subst hm; subst hc; subst hr
  exact ⟨rfl, rfl, rfl, rfl⟩

/-- C9 witness: the determinism theorem applied at a concrete input. -/
theorem resize_deterministic_witness :
    grow_vec (fun _ r => ((0 : Nat), r)) (fun _ => 1) 1 [7] (some 3) [1, 2] =
      grow_vec (fun _ r => ((0 : Nat), r)) (fun _ => 1) 1 [7] (some 3) [1, 2] ∧
    shrink_vec [7] [1, 2] = shrink_vec [7] [1, 2] ∧
    vecMutateGrow (fun _ r => ((0 : Nat), r)) (fun _ => 1) 1
        (fun t _ r => (t, r)) MutatorMode.Havoc [7] none [1, 2] =
      vecMutateGrow (fun _ r => ((0 : Nat), r)) (fun _ => 1) 1
        (fun t _ r => (t, r)) MutatorMode.Havoc [7] none [1, 2] ∧
    vecMutateDefault (fun t _ r => (t, r)) MutatorMode.Havoc [7] none [1, 2] =
      vecMutateDefault (fun t _ r => (t, r)) MutatorMode.Havoc [7] none [1, 2] :=
  resize_deterministic Nat (fun _ r => ((0 : Nat), r)) (fun _ => 1) 1
    (fun t _ r => (t, r)) MutatorMode.Havoc [7] [7] (some 3) (some 3)
    none none [1, 2] [1, 2] rfl rfl rfl rfl

/-- C10: on a non-empty sequence with no budget, a fractional count policy
that computes to zero (`Quarter` with length < 4, or `Half` with
length = 1) makes `grow_vec` return the sequence unchanged with the random
stream advanced only past the policy draw — no direction is drawn and no
element is generated; grow has no fallback count draw. -/
theorem grow_vec_fraction_zero_noop (T : Type)
    (gen : Option Constraints → Rand → T × Rand) (sz : T → Nat)
    (min_nonzero : Nat) (vec : List T) (r r1 : Rand) (policy : VecResizeCount)
    (h0 : vec ≠ [])
    (h1 : VecResizeCount.new_fuzzed r = (policy, r1))
    (h2 : policy = VecResizeCount.Quarter ∧ vec.length < 4 ∨
          policy = VecResizeCount.Half ∧ vec.length = 1) :
    grow_vec gen sz min_nonzero vec none r = (vec, r1) := by
  have hlen : vec.length ≠ 0 := by
    cases vec with
    | nil => exact absurd rfl h0
    | cons x xs => simp
  rcases h2 with ⟨hp, hl⟩ | ⟨hp, hl⟩
  · subst hp
    have hq : vec.length / 4 = 0 := Nat.div_eq_of_lt hl
    simp [grow_vec, h1, hlen, resizeCount, capCount, hq, growExec]
  · subst hp
    have hq : vec.length / 2 = 0 := by omega
    simp [grow_vec, h1, hlen, resizeCount, capCount, hq, growExec]

/-- C3: for both `Vec<T>` mutate impls, the structural resize branch
(`shrink_vec` for the default impl; a drawn grow/shrink for the
specialized impl) is taken exactly when the mode is `Havoc` and the chance
draw succeeds; in every other case the sequence is mutated element by
element through the slice contract, which never changes its length. -/
theorem vec_mutate_resize_iff (T : Type)
    (gen : Option Constraints → Rand → T × Rand) (sz : T → Nat)
    (min_nonzero : Nat) (me : T → Option Constraints → Rand → T × Rand)
    (mode : MutatorMode) (vec : List T) (c : Option Constraints) (r : Rand) :
    (vecMutateGrow gen sz min_nonzero me mode vec c r =
      if mode = MutatorMode.Havoc ∧ (gen_chance r).1 = true then
        (if (VecResizeType.new_fuzzed (gen_chance r).2).1 = VecResizeType.Grow
         then some (grow_vec gen sz min_nonzero vec
            (c.bind fun x => x.max_size)
            (VecResizeType.new_fuzzed (gen_chance r).2).2)
         else shrink_vec vec (VecResizeType.new_fuzzed (gen_chance r).2).2)
      else
        some (sliceMutate me c vec
          (if mode = MutatorMode.Havoc then (gen_chance r).2 else r))) ∧
    (vecMutateDefault me mode vec c r =
      if mode = MutatorMode.Havoc ∧ (gen_chance r).1 = true then
        shrink_vec vec (gen_chance r).2
      else
        some (sliceMutate me c vec
          (if mode = MutatorMode.Havoc then (gen_chance r).2 else r))) ∧
    (∀ r2 : Rand, (sliceMutate me c vec r2).1.length = vec.length) := by
  refine ⟨?_, ?_, sliceMutate_length me c vec⟩
  · cases mode with
    | Havoc =>
      by_cases hb : (gen_chance r).1 = true
      · simp [vecMutateGrow, hb]
      · simp [vecMutateGrow, hb]
    | NonDestructive => simp [vecMutateGrow]
  · cases mode with
    | Havoc =>
      by_cases hb : (gen_chance r).1 = true
      · simp [vecMutateDefault, hb]
      · simp [vecMutateDefault, hb]
    | NonDestructive => simp [vecMutateDefault]

/-- C5: on an empty sequence with no budget, `grow_vec` draws its element
count from `[1, 9)` — so between 1 and 8 inclusive — after the (unused)
policy draw, and appends exactly that many freshly generated elements in
generation order, whichever direction is drawn. -/
theorem grow_vec_empty_uniform_count (T : Type)
    (gen : Option Constraints → Rand → T × Rand) (sz : T → Nat)
    (min_nonzero : Nat) (r : Rand) :
    1 ≤ (gen_range 1 9 (VecResizeCount.new_fuzzed r).2).1 ∧
    (gen_range 1 9 (VecResizeCount.new_fuzzed r).2).1 ≤ 8 ∧
    grow_vec gen sz min_nonzero ([] : List T) none r =
      ((growElems gen sz (gen_range 1 9 (VecResizeCount.new_fuzzed r).2).1 none
          (VecResizeDirection.new_fuzzed
            (gen_range 1 9 (VecResizeCount.new_fuzzed r).2).2).2).1,
       (growElems gen sz (gen_range 1 9 (VecResizeCount.new_fuzzed r).2).1 none
          (VecResizeDirection.new_fuzzed
            (gen_range 1 9 (VecResizeCount.new_fuzzed r).2).2).2).2.2) ∧
    (growElems gen sz (gen_range 1 9 (VecResizeCount.new_fuzzed r).2).1 none
        (VecResizeDirection.new_fuzzed
          (gen_range 1 9 (VecResizeCount.new_fuzzed r).2).2).2).1.length =
      (gen_range 1 9 (VecResizeCount.new_fuzzed r).2).1 := by
  have hb := gen_range_bounds 1 9 (VecResizeCount.new_fuzzed r).2 (by omega)
  refine ⟨hb.1, by omega, ?_, growElems_none_length gen sz _ _⟩
  have hn : (gen_range 1 9 (VecResizeCount.new_fuzzed r).2).1 ≠ 0 := by omega
  simp only [grow_vec, List.length_nil, if_pos rfl, capCount, growExec,
    if_neg hn]
  cases hd : (VecResizeDirection.new_fuzzed
      (gen_range 1 9 (VecResizeCount.new_fuzzed r).2).2).1 <;>
    simp [hd, hn]

/-- C6: `shrink_vec` on an empty sequence returns immediately as a no-op,
consuming no draw; on a non-empty sequence whose drawn count policy
computes to zero it draws a replacement count uniformly from
`[0, length]` inclusive — hence at most the length — before any elements
are removed. -/
theorem shrink_vec_empty_noop_and_zero_fallback (T : Type) (vec : List T)
    (policy : VecResizeCount) (r r1 r2 : Rand)
    (h0 : vec ≠ [])
    (h1 : VecResizeCount.new_fuzzed r = (policy, r1))
    (h2 : resizeCount vec.length policy r1 = (0, r2)) :
    shrink_vec ([] : List T) r = some ([], r) ∧
    shrink_vec vec r =
      shrinkExec vec (gen_range 0 (vec.length + 1) r2).1
        (gen_range 0 (vec.length + 1) r2).2 ∧
    (gen_range 0 (vec.length + 1) r2).1 ≤ vec.length := by
  have hlen : vec.length ≠ 0 := by
    cases vec with
    | nil => exact absurd rfl h0
    | cons x xs => simp
  refine ⟨by simp [shrink_vec], ?_, ?_⟩
  · simp [shrink_vec, if_neg hlen, h1, h2]
  · have := gen_range_bounds 0 (vec.length + 1) r2 (by omega)
    omega

/-- C6 witness: a one-element sequence whose policy draw selects `Quarter`
(count `1 / 4 = 0`), triggering the uniform fallback draw. -/
theorem shrink_vec_empty_noop_and_zero_fallback_witness :
    shrink_vec ([] : List Nat) [0, 5] = some ([], [0, 5]) ∧
    shrink_vec [0] [0, 5] =
      shrinkExec [0] (gen_range 0 2 [5]).1 (gen_range 0 2 [5]).2 ∧
    (gen_range 0 2 [5]).1 ≤ 1 :=
  shrink_vec_empty_noop_and_zero_fallback Nat [0] VecResizeCount.Quarter
    [0, 5] [5] [5] (by decide) rfl rfl

/-- C10 witness: `grow_vec` at a concrete one-element sequence whose policy
draw selects `Quarter`, returning unchanged after only the policy draw. -/
theorem grow_vec_fraction_zero_noop_witness :
    grow_vec (fun _ r => ((0 : Nat), r)) (fun _ => 1) 1 [10] none [0, 9] =
      ([10], [9]) :=
  grow_vec_fraction_zero_noop Nat (fun _ r => ((0 : Nat), r)) (fun _ => 1) 1
    [10] [0, 9] [9] VecResizeCount.Quarter (by decide) (by decide)
    (Or.inl ⟨rfl, by decide⟩)

/-- C7: mutating an `AsciiString` or `Utf8String` of length at least 2
never changes its element count; the drawn number of mutated positions is
uniform in `[1, length - 1]`, and that many distinct in-range positions are
sampled without replacement. -/
theorem string_mutate_length_invariant (C : Type) (gen : Rand → C × Rand)
    (s : AsciiString C) (t : Utf8String C) (r : Rand)
    (hs : 2 ≤ s.inner.length) (ht : 2 ≤ t.inner.length) :
    (AsciiString.mutate gen s r).1.inner.length = s.inner.length ∧
    (Utf8String.mutate gen t r).1.inner.length = t.inner.length ∧
    (1 ≤ (gen_range 1 s.inner.length r).1 ∧
     (gen_range 1 s.inner.length r).1 ≤ s.inner.length - 1) ∧
    (sampleIndices (gen_range 1 s.inner.length r).1
        (List.range s.inner.length) (gen_range 1 s.inner.length r).2).1.Nodup ∧
    (sampleIndices (gen_range 1 s.inner.length r).1
        (List.range s.inner.length) (gen_range 1 s.inner.length r).2).1.length =
      (gen_range 1 s.inner.length r).1 ∧
    (∀ i ∈ (sampleIndices (gen_range 1 s.inner.length r).1
        (List.range s.inner.length) (gen_range 1 s.inner.length r).2).1,
      i < s.inner.length) := by
  have hb := gen_range_bounds 1 s.inner.length r (by omega)
  have hnm := sampleIndices_nodup_mem (gen_range 1 s.inner.length r).1
    (List.range s.inner.length) (gen_range 1 s.inner.length r).2
    (List.nodup_range s.inner.length)
  refine ⟨?_, ?_, ⟨hb.1, by omega⟩, hnm.1, ?_, ?_⟩
  · simp [AsciiString.mutate, stringMutate_length]
  · simp [Utf8String.mutate, stringMutate_length]
  · exact sampleIndices_length _ _ _ (by simp; omega)
  · intro i hi
    exact List.mem_range.mp (hnm.2 i hi)

/-- C7 witness: the string-mutation theorem applied to concrete two- and
three-character containers. -/
theorem string_mutate_length_invariant_witness :
    (AsciiString.mutate (fun r0 => ((9 : Nat), r0)) ⟨[0, 0]⟩ [1, 0, 0]).1.inner.length = 2 ∧
    (Utf8String.mutate (fun r0 => ((9 : Nat), r0)) ⟨[0, 0, 0]⟩ [1, 0, 0]).1.inner.length = 3 :=
  ⟨(string_mutate_length_invariant Nat (fun r0 => ((9 : Nat), r0))
      ⟨[0, 0]⟩ ⟨[0, 0, 0]⟩ [1, 0, 0] (by decide) (by decide)).1,
   (string_mutate_length_invariant Nat (fun r0 => ((9 : Nat), r0))
      ⟨[0, 0]⟩ ⟨[0, 0, 0]⟩ [1, 0, 0] (by decide) (by decide)).2.1⟩

/-- C8: when `grow_vec` draws the `FromBeginning` direction (and the capped
count is nonzero), the result is exactly the freshly generated staging list
spliced in front of the original sequence — the original elements are
unchanged in value and relative order and form a contiguous suffix. -/
theorem grow_vec_from_beginning_suffix (T : Type)
    (gen : Option Constraints → Rand → T × Rand) (sz : T → Nat)
    (min_nonzero : Nat) (vec : List T) (max_size : Option Nat)
    (policy : VecResizeCount) (n0 : Nat) (r r1 r2 r3 : Rand)
    (h1 : VecResizeCount.new_fuzzed r = (policy, r1))
    (h2 : (if vec.length = 0 then gen_range 1 9 r1
           else resizeCount vec.length policy r1) = (n0, r2))
    (hn : capCount max_size min_nonzero n0 ≠ 0)
    (h3 : VecResizeDirection.new_fuzzed r2 =
      (VecResizeDirection.FromBeginning, r3)) :
    grow_vec gen sz min_nonzero vec max_size r =
      ((growElems gen sz (capCount max_size min_nonzero n0) max_size r3).1 ++
        vec,
       (growElems gen sz (capCount max_size min_nonzero n0) max_size
         r3).2.2) := by
  simp only [grow_vec, h1, h2, growExec, if_neg hn, h3]

/-- C8 witness: a concrete `FromBeginning` grow of a one-element sequence,
with the generated element forming the prefix and the original element the
suffix. -/
theorem grow_vec_from_beginning_suffix_witness :
    grow_vec (fun _ r0 => ((0 : Nat), r0)) (fun _ => 1) 1 [5] none [4, 0] =
      ([0, 5], []) := by
  have h := grow_vec_from_beginning_suffix Nat (fun _ r0 => ((0 : Nat), r0))
    (fun _ => 1) 1 [5] none VecResizeCount.AllBytes 1 [4, 0] [0] [0] []
    rfl rfl (by decide) rfl
  simpa using h

end Lain
